import Mathlib

/-!
Shallow embedding of the node-reordering engine of
`firedrake_to_pytential/analogs/function_space.py` and the operator-evaluation
facade of `firedrake_to_pytential/op.py`.

Numpy integer arrays are modelled as `List Int` (or `List Nat` for node-index
tables), 2-D arrays as `List (List _)` in row-major order.  Fallible paths
(numpy `ValueError` on `np.max` of an empty array, the `assert` on the flip
matrix, Python `raise`) are modelled with `Except String`.
-/

namespace FdToPytential

/-- Dot product of two integer vectors, `np.dot`-style (truncating zip,
as numpy broadcasting is never exercised on mismatched shapes here). -/
def dotL (xs ys : List Int) : Int :=
  ((xs.zip ys).map (fun p => p.1 * p.2)).sum

/-- `np.einsum("ij,ej->ei", m, ·)` restricted to one row block:
matrix times a vector. -/
def matVec (m : List (List Int)) (v : List Int) : List Int :=
  m.map (fun row => dotL row v)

/-- Numpy transpose `.T` of a rectangular integer matrix (row-major lists). -/
def transposeM (m : List (List Int)) : List (List Int) :=
  (List.range (m.headD []).length).map (fun j => m.map (fun row => row.getD j 0))

/-- `np.dot(a, b)` for matrices. -/
def matMul (a b : List (List Int)) : List (List Int) :=
  a.map (fun row => (transposeM b).map (fun col => dotL row col))

/-- `np.eye n` as an integer matrix. -/
def idMat (n : Nat) : List (List Int) :=
  (List.range n).map (fun i => (List.range n).map (fun j => if i = j then (1 : Int) else 0))

/-- Pointwise matrix difference. -/
def matSub (a b : List (List Int)) : List (List Int) :=
  List.zipWith (fun r s => List.zipWith (fun x y => x - y) r s) a b

/-- Square of the Frobenius norm of an integer matrix.  On integer matrices,
`la.norm m < 1e-13` holds iff `frobSq m = 0`. -/
def frobSq (m : List (List Int)) : Int :=
  (m.map (fun row => (row.map (fun x => x * x)).sum)).sum

/-- The source's assertion
`la.norm(np.dot(flip_mat, flip_mat) - np.eye(len(flip_mat))) < 1e-13`
(function_space.py lines 340-342), specialized to the integer matrix obtained
from `np.rint`: the norm of an integer matrix is below `1e-13` iff it is zero. -/
def flipAssertPasses (f : List (List Int)) : Bool :=
  frobSq (matSub (matMul f f) (idMat f.length)) == 0

/-- The state of a `FunctionSpaceAnalog` (function_space.py) that the
reordering engine reads: the number of unit nodes per cell
(`finat_element_analog.unit_nodes().shape[1]`), the firedrake cell-node table
(`self._cell_node_list`, rows = cells, entries = firedrake global node ids),
the per-cell orientation signs (`self._mesh_analog.orientations()`), and the
integer flip matrix (`np.rint(finat_element_analog.flip_matrix())`).
This models the full-mesh path, where the stored cell-node table is the one
the reordering uses. -/
structure FunctionSpaceAnalog where
  nunit : Nat
  cellNodeList : List (List Nat)
  orientations : List Int
  flipMat : List (List Int)
deriving DecidableEq, Repr

/-- `num_meshmode_nodes()` (function_space.py lines 256-259):
`nelements * nunit_nodes`. -/
def num_meshmode_nodes (st : FunctionSpaceAnalog) : Nat :=
  st.cellNodeList.length * st.nunit

/-- `num_firedrake_nodes()` via `_compute_fd_cell_nodes`
(function_space.py line 280): `np.max(cell_node_list) + 1`.
`np.max` of a zero-size array raises `ValueError`, modelled as `none`.
On a nonempty list of naturals, `foldl Nat.max 0` is the maximum. -/
def num_firedrake_nodes (st : FunctionSpaceAnalog) : Option Nat :=
  let flat := st.cellNodeList.flatten
  if flat.isEmpty then none else some (flat.foldl Nat.max 0 + 1)

/-- `np.arange n` as an integer list. -/
def arangeI (n : Nat) : List Int :=
  (List.range n).map (fun i => (Nat.cast i : Int))

/-- `order.reshape((order.shape[0]//nunit_nodes, nunit_nodes))`
(function_space.py lines 350-352). -/
def chunksOf (n : Nat) (l : List α) : List (List α) :=
  (List.range (l.length / n)).map (fun c => (l.drop (c * n)).take n)

/-- The flip step (function_space.py lines 359-373):
`new_order[orient < 0] = np.einsum("ij,ej->ei", flip_mat, new_order[orient < 0])`
leaves rows of cells with nonnegative orientation unchanged and applies the
flip matrix to rows of cells with negative orientation. -/
def flipStep (flipMat : List (List Int)) (orient : List Int)
    (rows : List (List Int)) : List (List Int) :=
  List.zipWith (fun o row => if o < 0 then matVec flipMat row else row) orient rows

/-- The duplicate collapse (function_space.py lines 382-389):
`newnew_order = np.zeros(num_firedrake_nodes); pyt_ndx = 0;`
`for nodes in cell_node_list: for fd_index in nodes:`
`  newnew_order[fd_index] = new_order[pyt_ndx]; pyt_ndx += 1` —
a sequential overwrite, so the last slot (in table iteration order) that maps
to a firedrake node wins. -/
def collapseMM (nfd : Nat) (cnl : List (List Nat)) (flat : List Int) : List Int :=
  ((cnl.flatten.zip flat)).foldl (fun acc p => acc.set p.1 p.2) (List.replicate nfd 0)

/-- Message for `np.max` of a zero-size array (raised inside
`_compute_fd_cell_nodes`, function_space.py line 280). -/
def zeroSizeMaxError : String :=
  "zero-size array to reduction operation maximum which has no identity"

/-- Message for the failed `assert` on the flip matrix
(function_space.py lines 340-342). -/
def flipCheckError : String := "flipping twice should be identity"

/-- `_reordering_array(firedrake_to_meshmode)` (function_space.py
lines 311-412), the first-computation path (the cache is write-once, so the
cached array equals this value).  Steps, in source order:
order = `np.arange` of the source node count (for fd->mm this forces
`num_firedrake_nodes`, which raises on an empty table); the flip matrix is
transposed for mm->fd; the flip assertion; gather `order[cell_node_list]`
(fd->mm) or reshape into cells (mm->fd); the flip step; flatten; and for
mm->fd with distinct node counts, the duplicate collapse. -/
def reordering_array (st : FunctionSpaceAnalog) (firedrakeToMeshmode : Bool) :
    Except String (List Int) :=
  let flipMat := if firedrakeToMeshmode then st.flipMat else transposeM st.flipMat
  let orderE : Except String (List Int) :=
    if firedrakeToMeshmode then
      match num_firedrake_nodes st with
      | none => .error zeroSizeMaxError
      | some n => .ok (arangeI n)
    else .ok (arangeI (num_meshmode_nodes st))
  Except.bind orderE (fun order =>
    if ¬ flipAssertPasses flipMat then .error flipCheckError
    else
      let newOrder :=
        if firedrakeToMeshmode then
          st.cellNodeList.map (fun row => row.map (fun i => order.getD i 0))
        else chunksOf st.nunit order
      let flat := (flipStep flipMat st.orientations newOrder).flatten
      if firedrakeToMeshmode then .ok flat
      else
        match num_firedrake_nodes st with
        | none => .error zeroSizeMaxError
        | some nfd =>
          if nfd ≠ num_meshmode_nodes st then .ok (collapseMM nfd st.cellNodeList flat)
          else .ok flat)

/-- `reorder_nodes(nodes, firedrake_to_meshmode)` (function_space.py
lines 414-426) on a scalar-valued array `nodes` of shape `(nodes,)`:
the gather `nodes[reordering_array]`. -/
def reorder_nodes_scalar (st : FunctionSpaceAnalog) (nodes : List Int)
    (firedrakeToMeshmode : Bool) : Except String (List Int) :=
  (reordering_array st firedrakeToMeshmode).map
    (fun arr => arr.map (fun i => nodes.getD i.toNat 0))

/-- `reorder_nodes(nodes, firedrake_to_meshmode)` (function_space.py
lines 414-426) on a vector-valued array `nodes` of shape `(nodes, dim)`:
the gather `nodes[reordering_array]` rides the vector axis along, then
`reordered_nodes.T.copy()` transposes to the vector-dimension-major layout. -/
def reorder_nodes_vec (st : FunctionSpaceAnalog) (nodes : List (List Int))
    (firedrakeToMeshmode : Bool) : Except String (List (List Int)) :=
  (reordering_array st firedrakeToMeshmode).map
    (fun arr => transposeM (arr.map (fun i => nodes.getD i.toNat [])))

/-- Applying fd->mm and then mm->fd reordering, as in claim C1. -/
def roundTrip (st : FunctionSpaceAnalog) (x : List Int) : Except String (List Int) :=
  Except.bind (reorder_nodes_scalar st x true)
    (fun y => reorder_nodes_scalar st y false)

/-- The permutation matrix of an index map `s` (row `i` has a `1` in column
`s i`), the form `np.rint(flip_matrix())` takes for the simplicial flip
matrices used by the source. -/
def permMatL (n : Nat) (s : Nat → Nat) : List (List Int) :=
  (List.range n).map (fun i => (List.range n).map (fun j => if j = s i then (1 : Int) else 0))

/-- The contiguous (fully-discontinuous, per-cell) cell-node table layout:
cell `c` owns nodes `c*n .. c*n + n - 1` in order.  This is the layout a
firedrake DG space has when `num_firedrake_nodes == num_meshmode_nodes`. -/
def contiguousCNL (m n : Nat) : List (List Nat) :=
  (List.range m).map (fun c => (List.range n).map (fun j => c * n + j))

/-- Local node index after the flip step: identity on cells of nonnegative
orientation, the flip permutation on negatively oriented cells. -/
def flipPermIdx (orient : List Int) (s : Nat → Nat) (c i : Nat) : Nat :=
  if orient.getD c 0 < 0 then s i else i

instance : DecidableEq (Except String (List Int)) := fun a b =>
  match a, b with
  | .error e, .error f =>
    if h : e = f then isTrue (by rw [h]) else isFalse (fun hh => h (Except.error.inj hh))
  | .ok x, .ok y =>
    if h : x = y then isTrue (by rw [h]) else isFalse (fun hh => h (Except.ok.inj hh))
  | .error _, .ok _ => isFalse (fun hh => Except.noConfusion hh)
  | .ok _, .error _ => isFalse (fun hh => Except.noConfusion hh)

/-! ### Generic list and matrix lemmas -/

theorem getD_range_map {α : Type} (n j : Nat) (f : Nat → α) (d : α) (h : j < n) :
    ((List.range n).map f).getD j d = f j := by
  rw [List.getD_eq_getElem _ d (by simpa using h)]
  simp

theorem headD_range_map {α : Type} (n : Nat) (f : Nat → α) (d : α) (h : 0 < n) :
    ((List.range n).map f).headD d = f 0 := by
  cases n with
  | zero => omega
  | succ p => rw [List.range_succ_eq_map]; rfl

theorem arangeI_getD (N k : Nat) (h : k < N) : (arangeI N).getD k 0 = (k : Int) :=
  getD_range_map N k (fun i => (Nat.cast i : Int)) 0 h

theorem dotL_cons (a x : Int) (l xs : List Int) :
    dotL (a :: l) (x :: xs) = a * x + dotL l xs := by
  simp [dotL]

theorem dotL_zeros (l : List Int) (xs : List Int) (h : ∀ x ∈ l, x = 0) :
    dotL l xs = 0 := by
  unfold dotL
  apply List.sum_eq_zero
  intro x hx
  simp only [List.mem_map] at hx
  obtain ⟨p, hp, rfl⟩ := hx
  rw [h _ (List.of_mem_zip hp).1, zero_mul]

theorem dotL_oneHot (v : List Int) (s : Nat) (h : s < v.length) :
    dotL ((List.range v.length).map (fun j => if j = s then (1 : Int) else 0)) v
      = v.getD s 0 := by
  induction v generalizing s with
  | nil => simp at h
  | cons x xs ih =>
    rw [List.length_cons, List.range_succ_eq_map, List.map_cons, List.map_map]
    cases s with
    | zero =>
      rw [if_pos rfl, dotL_cons, dotL_zeros, List.getD_cons_zero]
      · ring
      · intro y hy
        simp only [List.mem_map, Function.comp] at hy
        obtain ⟨p, _, rfl⟩ := hy
        simp
    | succ t =>
      have ht : t < xs.length := by simpa using h
      rw [dotL_cons, if_neg (by omega), List.getD_cons_succ]
      have hmap : (List.range xs.length).map
            ((fun j => if j = t + 1 then (1 : Int) else 0) ∘ Nat.succ)
          = (List.range xs.length).map (fun j => if j = t then (1 : Int) else 0) := by
        apply List.map_congr_left
        intro j _
        simp only [Function.comp, Nat.succ_eq_add_one]
        by_cases hjt : j = t
        · rw [if_pos (by omega), if_pos hjt]
        · rw [if_neg (by omega), if_neg hjt]
      rw [hmap, ih t ht]
      ring

theorem matVec_permMat (n : Nat) (s : Nat → Nat) (v : List Int)
    (hv : v.length = n) (hs : ∀ i, i < n → s i < n) :
    matVec (permMatL n s) v = (List.range n).map (fun i => v.getD (s i) 0) := by
  subst hv
  unfold matVec permMatL
  rw [List.map_map]
  apply List.map_congr_left
  intro i hi
  rw [List.mem_range] at hi
  exact dotL_oneHot v (s i) (hs i hi)

theorem transposeM_permMat (n : Nat) (s : Nat → Nat)
    (hs : ∀ i, i < n → s i < n) (hinv : ∀ i, i < n → s (s i) = i) :
    transposeM (permMatL n s) = permMatL n s := by
  unfold transposeM
  cases Nat.eq_zero_or_pos n with
  | inl h0 => subst h0; simp [permMatL]
  | inr hn =>
    have hhead : ((permMatL n s).headD []).length = n := by
      unfold permMatL
      rw [headD_range_map n _ [] hn]
      simp
    rw [hhead]
    unfold permMatL
    apply List.map_congr_left
    intro j hj
    rw [List.mem_range] at hj
    rw [List.map_map]
    apply List.map_congr_left
    intro i hi
    rw [List.mem_range] at hi
    simp only [Function.comp]
    rw [getD_range_map n j _ 0 hj]
    by_cases hij : i = s j
    · rw [if_pos (by rw [hij, hinv j hj]), if_pos hij]
    · rw [if_neg (fun hc => hij (by rw [← hinv i hi, ← hc])), if_neg hij]

theorem matMul_permMat_self (n : Nat) (s : Nat → Nat)
    (hs : ∀ i, i < n → s i < n) (hinv : ∀ i, i < n → s (s i) = i) :
    matMul (permMatL n s) (permMatL n s) = idMat n := by
  unfold matMul
  rw [transposeM_permMat n s hs hinv]
  unfold permMatL idMat
  rw [List.map_map]
  apply List.map_congr_left
  intro i hi
  rw [List.mem_range] at hi
  simp only [Function.comp]
  rw [List.map_map]
  apply List.map_congr_left
  intro j hj
  rw [List.mem_range] at hj
  simp only [Function.comp]
  have hlen : ((List.range n).map (fun k => if k = s j then (1 : Int) else 0)).length = n := by
    simp
  rw [show ((List.range n).map (fun j' => if j' = s i then (1 : Int) else 0))
        = ((List.range ((List.range n).map
            (fun k => if k = s j then (1 : Int) else 0)).length).map
            (fun j' => if j' = s i then (1 : Int) else 0)) by rw [hlen]]
  rw [dotL_oneHot _ (s i) (by rw [hlen]; exact hs i hi)]
  rw [getD_range_map n (s i) _ 0 (hs i hi)]
  by_cases hij : i = j
  · rw [if_pos (by rw [hij]), if_pos hij]
  · rw [if_neg (fun hc => hij (by rw [← hinv i hi, hc, hinv j hj])), if_neg hij]

theorem flipAssertPasses_permMat (n : Nat) (s : Nat → Nat)
    (hs : ∀ i, i < n → s i < n) (hinv : ∀ i, i < n → s (s i) = i) :
    flipAssertPasses (permMatL n s) = true := by
  unfold flipAssertPasses
  have hlen : (permMatL n s).length = n := by simp [permMatL]
  rw [hlen, matMul_permMat_self n s hs hinv]
  rw [beq_iff_eq]
  unfold matSub
  rw [List.zipWith_same]
  unfold frobSq
  rw [List.map_map]
  apply List.sum_eq_zero
  intro x hx
  simp only [List.mem_map, Function.comp] at hx
  obtain ⟨row, _, rfl⟩ := hx
  rw [List.zipWith_same, List.map_map]
  apply List.sum_eq_zero
  intro y hy
  simp only [List.mem_map, Function.comp] at hy
  obtain ⟨a, _, rfl⟩ := hy
  ring

theorem flatten_range_map {α : Type} (m n : Nat) (f : Nat → Nat → α) (hn : 0 < n) :
    ((List.range m).map (fun c => (List.range n).map (f c))).flatten
      = (List.range (m * n)).map (fun k => f (k / n) (k % n)) := by
  induction m with
  | zero => simp
  | succ p ih =>
    rw [List.range_succ, List.map_append, List.flatten_append, ih]
    rw [show (p + 1) * n = p * n + n by ring, List.range_add, List.map_append]
    congr 1
    · simp only [List.map_cons, List.map_nil, List.flatten_cons, List.flatten_nil,
        List.append_nil, List.map_map]
      apply List.map_congr_left
      intro j hj
      rw [List.mem_range] at hj
      simp only [Function.comp]
      rw [Nat.add_comm (p * n) j, Nat.add_mul_div_right j p hn,
        Nat.add_mul_mod_self_right, Nat.div_eq_of_lt hj, Nat.mod_eq_of_lt hj,
        Nat.zero_add]

theorem foldl_max_range (N : Nat) (h : 0 < N) :
    (List.range N).foldl Nat.max 0 = N - 1 := by
  induction N with
  | zero => omega
  | succ p ih =>
    rw [List.range_succ, List.foldl_append, List.foldl_cons, List.foldl_nil]
    cases Nat.eq_zero_or_pos p with
    | inl h0 => subst h0; rfl
    | inr hp =>
      rw [ih hp]
      simp [Nat.max_def]

theorem contiguousCNL_flatten (m n : Nat) (hn : 0 < n) :
    (contiguousCNL m n).flatten = List.range (m * n) := by
  unfold contiguousCNL
  rw [flatten_range_map m n _ hn]
  have : ∀ k ∈ List.range (m * n), k / n * n + k % n = k := by
    intro k _
    rw [Nat.mul_comm]
    exact Nat.div_add_mod k n
  rw [List.map_congr_left this]
  simp

theorem num_firedrake_nodes_contiguous (st : FunctionSpaceAnalog) (m n : Nat)
    (hcnl : st.cellNodeList = contiguousCNL m n) (hm : 0 < m) (hn : 0 < n) :
    num_firedrake_nodes st = some (m * n) := by
  unfold num_firedrake_nodes
  rw [hcnl, contiguousCNL_flatten m n hn]
  have hpos : 0 < m * n := Nat.mul_pos hm hn
  rw [if_neg (by simp [List.isEmpty_iff, List.range_eq_nil]; omega)]
  rw [foldl_max_range (m * n) hpos]
  congr 1
  omega

theorem num_meshmode_nodes_contiguous (st : FunctionSpaceAnalog) (m n : Nat)
    (hnu : st.nunit = n) (hcnl : st.cellNodeList = contiguousCNL m n) :
    num_meshmode_nodes st = m * n := by
  unfold num_meshmode_nodes
  rw [hcnl, hnu]
  simp [contiguousCNL]

theorem chunksOf_arangeI (m n : Nat) (hn : 0 < n) :
    chunksOf n (arangeI (m * n)) =
      (List.range m).map (fun c => (List.range n).map
        (fun j => (Nat.cast (c * n + j) : Int))) := by
  unfold chunksOf
  have hlen : (arangeI (m * n)).length = m * n := by simp [arangeI]
  rw [hlen, Nat.mul_div_cancel m hn]
  apply List.map_congr_left
  intro c hc
  rw [List.mem_range] at hc
  have hcn : c * n + n ≤ m * n := by
    have := Nat.mul_le_mul_right n (show c + 1 ≤ m by omega)
    calc c * n + n = (c + 1) * n := by ring
    _ ≤ m * n := this
  apply List.ext_getElem
  · simp only [List.length_take, List.length_drop, List.length_map, List.length_range, hlen]
    omega
  · intro i h1 h2
    simp only [List.length_take, List.length_drop, hlen] at h1
    rw [List.getElem_take, List.getElem_drop]
    simp only [List.getElem_map, List.getElem_range]
    have : c * n + i < m * n := by omega
    simp [arangeI, List.getElem_map, List.getElem_range, this]

/-! ### Sequential-overwrite (`foldl set`) lemmas for the duplicate collapse
and the `__call__` scatter -/

theorem foldl_set_length (pairs : List (Nat × Int)) (init : List Int) :
    (pairs.foldl (fun acc p => acc.set p.1 p.2) init).length = init.length := by
  induction pairs generalizing init with
  | nil => rfl
  | cons p rest ih => rw [List.foldl_cons, ih, List.length_set]

theorem foldl_set_getD (pairs : List (Nat × Int)) (init : List Int) (k : Nat)
    (hk : k < init.length) :
    (pairs.foldl (fun acc p => acc.set p.1 p.2) init).getD k 0
      = ((pairs.filter (fun p => p.1 = k)).map Prod.snd).getLastD (init.getD k 0) := by
  induction pairs generalizing init with
  | nil => simp
  | cons p rest ih =>
    rw [List.foldl_cons, ih _ (by rw [List.length_set]; exact hk)]
    by_cases hp : p.1 = k
    · rw [List.filter_cons_of_pos (by simp [hp]), List.map_cons, List.getLastD_cons]
      congr 1
      subst hp
      rw [List.getD_eq_getElem _ _ (by rw [List.length_set]; exact hk)]
      exact List.getElem_set_self _
    · rw [List.filter_cons_of_neg (by simp [hp])]
      congr 1
      rw [List.getD_eq_getElem _ _ (by rw [List.length_set]; exact hk),
        List.getD_eq_getElem _ _ hk]
      exact List.getElem_set_ne hp _

theorem foldl_set_getD_untouched (pairs : List (Nat × Int)) (init : List Int) (k : Nat)
    (hk : ∀ p ∈ pairs, p.1 ≠ k) :
    (pairs.foldl (fun acc p => acc.set p.1 p.2) init).getD k 0 = init.getD k 0 := by
  induction pairs generalizing init with
  | nil => rfl
  | cons p rest ih =>
    rw [List.foldl_cons, ih _ (fun q hq => hk q (List.mem_cons_of_mem _ hq))]
    by_cases hlen : k < init.length
    · rw [List.getD_eq_getElem _ _ (by rw [List.length_set]; exact hlen),
        List.getD_eq_getElem _ _ hlen]
      exact List.getElem_set_ne (hk p (List.mem_cons_self p rest)) _
    · rw [List.getD_eq_default _ _ (by rw [List.length_set]; omega),
        List.getD_eq_default _ _ (by omega)]

/-! ### The reordering array under the contiguous per-cell layout -/

theorem flipStep_contiguous (m n : Nat) (s : Nat → Nat) (orient : List Int)
    (hor : orient.length = m) (hs : ∀ i, i < n → s i < n) :
    flipStep (permMatL n s) orient
        ((List.range m).map (fun c => (List.range n).map
          (fun j => (Nat.cast (c * n + j) : Int))))
      = (List.range m).map (fun c => (List.range n).map
          (fun i => (Nat.cast (c * n + flipPermIdx orient s c i) : Int))) := by
  apply List.ext_getElem
  · simp [flipStep, hor]
  · intro c h1 h2
    simp only [List.length_map, List.length_range] at h2
    unfold flipStep
    rw [List.getElem_zipWith]
    simp only [List.getElem_map, List.getElem_range]
    have hcb : c < orient.length := by rw [hor]; exact h2
    have hoc : orient[c] = orient.getD c 0 :=
      (List.getD_eq_getElem _ _ hcb).symm
    rw [hoc]
    unfold flipPermIdx
    by_cases ho : orient.getD c 0 < 0
    · rw [if_pos ho]
      rw [matVec_permMat n s _ (by simp) hs]
      apply List.map_congr_left
      intro i hi
      rw [List.mem_range] at hi
      rw [getD_range_map n (s i) _ 0 (hs i hi), if_pos ho]
    · rw [if_neg ho]
      apply List.map_congr_left
      intro i hi
      rw [if_neg ho]

theorem reordering_array_contiguous (st : FunctionSpaceAnalog) (m n : Nat)
    (s : Nat → Nat) (b : Bool)
    (hnu : st.nunit = n) (hcnl : st.cellNodeList = contiguousCNL m n)
    (hor : st.orientations.length = m) (hf : st.flipMat = permMatL n s)
    (hs : ∀ i, i < n → s i < n) (hinv : ∀ i, i < n → s (s i) = i)
    (hm : 0 < m) (hn : 0 < n) :
    reordering_array st b = Except.ok
      ((List.range (m * n)).map (fun k =>
        (Nat.cast (k / n * n + flipPermIdx st.orientations s (k / n) (k % n)) : Int))) := by
  have hflipEff : (if b then st.flipMat else transposeM st.flipMat) = permMatL n s := by
    cases b
    · simp only [if_neg Bool.false_ne_true, Bool.false_eq_true, if_false]
      rw [hf, transposeM_permMat n s hs hinv]
    · simpa using hf
  have hassert : flipAssertPasses (permMatL n s) = true :=
    flipAssertPasses_permMat n s hs hinv
  have hnfd := num_firedrake_nodes_contiguous st m n hcnl hm hn
  have hnmm := num_meshmode_nodes_contiguous st m n hnu hcnl
  have hnotnot : ¬¬flipAssertPasses (permMatL n s) = true := by
    simp [hassert]
  have hgather : st.cellNodeList.map
        (fun row => row.map (fun i => (arangeI (m * n)).getD i 0))
      = (List.range m).map (fun c => (List.range n).map
          (fun j => (Nat.cast (c * n + j) : Int))) := by
    rw [hcnl]
    unfold contiguousCNL
    rw [List.map_map]
    apply List.map_congr_left
    intro c hc
    rw [List.mem_range] at hc
    simp only [Function.comp]
    rw [List.map_map]
    apply List.map_congr_left
    intro j hj
    rw [List.mem_range] at hj
    simp only [Function.comp]
    apply arangeI_getD
    calc c * n + j < c * n + n := by omega
    _ = (c + 1) * n := by ring
    _ ≤ m * n := Nat.mul_le_mul_right n (by omega)
  unfold reordering_array
  rw [hnfd, hnmm, hflipEff]
  cases b
  · simp only [Bool.false_eq_true, if_false]
    simp only [Except.bind]
    rw [if_neg hnotnot, if_neg (show ¬ m * n ≠ m * n by omega)]
    rw [hnu, chunksOf_arangeI m n hn,
      flipStep_contiguous m n s st.orientations hor hs,
      flatten_range_map m n _ hn]
  · simp only [if_true]
    simp only [Except.bind]
    rw [if_neg hnotnot]
    rw [hgather, flipStep_contiguous m n s st.orientations hor hs,
      flatten_range_map m n _ hn]

end FdToPytential


namespace FdToPytential

/-! ### Claim C1: round trip -/

/-- A state with equal node counts (`num_firedrake_nodes = num_meshmode_nodes
= 2`) whose cell-node table is a bijection but not the contiguous per-cell
layout: one cell, two local nodes, table row `[1, 0]`, positive orientation,
identity flip matrix. -/
def c1State : FunctionSpaceAnalog := ⟨2, [[1, 0]], [1], [[1, 0], [0, 1]]⟩

/-- The state used to witness the amended C1: two cells in the contiguous
layout, the second cell orientation-reversed, flip matrix the local swap. -/
def c1WitnessState : FunctionSpaceAnalog :=
  ⟨2, [[0, 1], [2, 3]], [1, -1], [[0, 1], [1, 0]]⟩

end FdToPytential

/-- C1, counterexample: equal node counts alone do not make
`reorder_nodes(·, True)` followed by `reorder_nodes(·, False)` the identity.
At `c1State` the counts agree (`num_firedrake_nodes = some 2 =
some num_meshmode_nodes`), yet the round trip of `[10, 20]` yields `[20, 10]`:
with equal counts the mm->fd direction skips the duplicate collapse and
returns the flip-adjusted identity enumeration, which only inverts the
fd->mm gather when the cell-node table is the contiguous per-cell layout. -/
theorem c1_roundtrip_counterexample :
    FdToPytential.num_firedrake_nodes FdToPytential.c1State
        = some (FdToPytential.num_meshmode_nodes FdToPytential.c1State) ∧
      FdToPytential.roundTrip FdToPytential.c1State [10, 20] ≠ Except.ok [10, 20] := by
  constructor
  · rfl
  · decide

namespace FdToPytential

/-- C1 (amended): when the source and target conventions have equal node
counts because the firedrake cell-node table is the contiguous per-cell
(fully-discontinuous) layout — the layout under which
`num_firedrake_nodes() == num_meshmode_nodes()` arises in practice — and the
rounded flip matrix is the permutation matrix of an involution of the local
nodes, applying `reorder_nodes` with `firedrake_to_meshmode=True` and then
with `firedrake_to_meshmode=False` reproduces the input exactly: the two
reordering arrays compose to the identity permutation. -/
theorem flip_idx_lt (orient : List Int) (s : Nat → Nat) (n c i : Nat)
    (hi : i < n) (hs : ∀ j, j < n → s j < n) :
    flipPermIdx orient s c i < n := by
  unfold flipPermIdx
  split
  · exact hs _ hi
  · exact hi

theorem perm_expr_lt (orient : List Int) (s : Nat → Nat) (m n k : Nat)
    (hn : 0 < n) (hk : k < m * n) (hs : ∀ j, j < n → s j < n) :
    k / n * n + flipPermIdx orient s (k / n) (k % n) < m * n := by
  have hc : k / n < m := (Nat.div_lt_iff_lt_mul hn).2 hk
  have hr : k % n < n := Nat.mod_lt _ hn
  have hrho := flip_idx_lt orient s n (k / n) (k % n) hr hs
  calc k / n * n + flipPermIdx orient s (k / n) (k % n)
      < k / n * n + n := by omega
  _ = (k / n + 1) * n := by ring
  _ ≤ m * n := Nat.mul_le_mul_right n (by omega)

theorem perm_expr_invol (orient : List Int) (s : Nat → Nat) (n k : Nat)
    (hn : 0 < n)
    (hs : ∀ j, j < n → s j < n) (hinv : ∀ j, j < n → s (s j) = j) :
    (k / n * n + flipPermIdx orient s (k / n) (k % n)) / n * n
        + flipPermIdx orient s
            ((k / n * n + flipPermIdx orient s (k / n) (k % n)) / n)
            ((k / n * n + flipPermIdx orient s (k / n) (k % n)) % n)
      = k := by
  have hr : k % n < n := Nat.mod_lt _ hn
  have hrho := flip_idx_lt orient s n (k / n) (k % n) hr hs
  have hdiv : (k / n * n + flipPermIdx orient s (k / n) (k % n)) / n = k / n := by
    rw [Nat.add_comm, Nat.add_mul_div_right _ _ hn, Nat.div_eq_of_lt hrho, Nat.zero_add]
  have hmod : (k / n * n + flipPermIdx orient s (k / n) (k % n)) % n
      = flipPermIdx orient s (k / n) (k % n) := by
    rw [Nat.add_comm, Nat.add_mul_mod_self_right, Nat.mod_eq_of_lt hrho]
  rw [hdiv, hmod]
  unfold flipPermIdx
  by_cases ho : orient.getD (k / n) 0 < 0
  · simp only [if_pos ho]
    rw [hinv _ hr, Nat.mul_comm]
    exact Nat.div_add_mod k n
  · simp only [if_neg ho]
    rw [Nat.mul_comm]
    exact Nat.div_add_mod k n

end FdToPytential

namespace FdToPytential

/-- C1 (amended): when the source and target conventions have equal node
counts because the firedrake cell-node table is the contiguous per-cell
(fully-discontinuous) layout — the layout under which
`num_firedrake_nodes() == num_meshmode_nodes()` arises in practice — and the
rounded flip matrix is the permutation matrix of an involution of the local
nodes, applying `reorder_nodes` with `firedrake_to_meshmode=True` and then
with `firedrake_to_meshmode=False` reproduces the input exactly: the two
reordering arrays compose to the identity permutation. -/
theorem c1_roundtrip_contiguous (st : FunctionSpaceAnalog) (m n : Nat)
    (s : Nat → Nat) (x : List Int)
    (hnu : st.nunit = n) (hcnl : st.cellNodeList = contiguousCNL m n)
    (hor : st.orientations.length = m) (hf : st.flipMat = permMatL n s)
    (hs : ∀ i, i < n → s i < n) (hinv : ∀ i, i < n → s (s i) = i)
    (hm : 0 < m) (hn : 0 < n) (hx : x.length = m * n) :
    roundTrip st x = Except.ok x := by
  have harr := fun b => reordering_array_contiguous st m n s b hnu hcnl hor hf hs hinv hm hn
  unfold roundTrip reorder_nodes_scalar
  rw [harr true]
  simp only [Except.map, Except.bind]
  rw [harr false]
  simp only [Except.map]
  congr 1
  apply List.ext_getElem
  · simp [hx]
  · intro k h1 h2
    simp only [List.length_map, List.length_range] at h1
    simp only [List.getElem_map, List.getElem_range]
    rw [Int.toNat_natCast]
    have hlen : (((List.range (m * n)).map (fun k =>
          (Nat.cast (k / n * n + flipPermIdx st.orientations s (k / n) (k % n)) : Int))).map
            (fun i => x.getD i.toNat 0)).length = m * n := by
      simp
    rw [List.getD_eq_getElem _ _ (by
      rw [hlen]
      exact perm_expr_lt st.orientations s m n k hn h1 hs)]
    simp only [List.getElem_map, List.getElem_range]
    rw [Int.toNat_natCast, perm_expr_invol st.orientations s n k hn hs hinv]
    rw [List.getD_eq_getElem _ _ (by omega)]

end FdToPytential

/-- C1 witness: the amended round-trip theorem applied at a concrete
two-cell contiguous state with one orientation-reversed cell and the local
swap as flip matrix. -/
theorem c1_roundtrip_contiguous_witness :
    FdToPytential.roundTrip FdToPytential.c1WitnessState [10, 20, 30, 40]
      = Except.ok [10, 20, 30, 40] :=
  FdToPytential.c1_roundtrip_contiguous FdToPytential.c1WitnessState 2 2
    (fun i => 1 - i) [10, 20, 30, 40]
    rfl (by decide) rfl (by decide)
    (fun i hi => by simp only []; omega) (fun i hi => by simp only []; omega)
    (by decide) (by decide) rfl

namespace FdToPytential

/-! ### Claim C4: positively-oriented cells are untouched by the flip step -/

end FdToPytential

/-- C4: in the flip step of the reordering computation, a cell whose
orientation entry is not negative (in particular every cell with orientation
`+1`) keeps its local-node block unchanged, and only cells with negative
orientation get the flip matrix applied to their slice. -/
theorem c4_positive_orientation_unflipped (f : List (List Int))
    (orient : List Int) (rows : List (List Int)) (c : Nat)
    (hc1 : c < orient.length) (hc2 : c < rows.length) :
    (¬ orient.getD c 0 < 0 →
      (FdToPytential.flipStep f orient rows).getD c [] = rows.getD c []) ∧
    (orient.getD c 0 < 0 →
      (FdToPytential.flipStep f orient rows).getD c []
        = FdToPytential.matVec f (rows.getD c [])) := by
  have hlen : c < (FdToPytential.flipStep f orient rows).length := by
    simp only [FdToPytential.flipStep, List.length_zipWith]
    omega
  have hval : (FdToPytential.flipStep f orient rows).getD c []
      = (if orient.getD c 0 < 0
          then FdToPytential.matVec f (rows.getD c []) else rows.getD c []) := by
    rw [List.getD_eq_getElem _ _ hlen]
    unfold FdToPytential.flipStep
    rw [List.getElem_zipWith]
    rw [List.getD_eq_getElem orient 0 hc1, List.getD_eq_getElem rows [] hc2]
  constructor <;> intro ho
  · rw [hval, if_neg ho]
  · rw [hval, if_pos ho]

/-- C4 witness: at a concrete flip matrix, orientation vector `[1, -1]` and
two cell rows, the positively-oriented cell's row is unchanged and the
negatively-oriented cell's row gets the flip matrix. -/
theorem c4_positive_orientation_unflipped_witness :
    (FdToPytential.flipStep [[0, 1], [1, 0]] [1, -1] [[5, 6], [7, 8]]).getD 0 []
        = [5, 6] ∧
      (FdToPytential.flipStep [[0, 1], [1, 0]] [1, -1] [[5, 6], [7, 8]]).getD 1 []
        = FdToPytential.matVec [[0, 1], [1, 0]] [7, 8] :=
  ⟨(c4_positive_orientation_unflipped [[0, 1], [1, 0]] [1, -1] [[5, 6], [7, 8]] 0
      (by decide) (by decide)).1 (by decide),
   (c4_positive_orientation_unflipped [[0, 1], [1, 0]] [1, -1] [[5, 6], [7, 8]] 1
      (by decide) (by decide)).2 (by decide)⟩

namespace FdToPytential

/-! ### Claim C3: the flip-matrix involution check -/

/-- The flip matrix the check is applied to: the rounded flip matrix itself
for fd->mm, its transpose for mm->fd (function_space.py lines 335-337). -/
def effectiveFlipMat (st : FunctionSpaceAnalog) (firedrakeToMeshmode : Bool) :
    List (List Int) :=
  if firedrakeToMeshmode then st.flipMat else transposeM st.flipMat

end FdToPytential

/-- C3: the reordering computation validates that the rounded flip matrix
(transposed for the meshmode-to-firedrake direction) squares to the identity
within tolerance (`flipAssertPasses`, the integer form of
`la.norm(F @ F - I) < 1e-13`).  Under the precondition that the check holds,
the assertion branch is unreachable — `_reordering_array` never produces the
assertion failure; and when the check fails (and the computation reaches the
assertion, i.e. the fd->mm direction did not already fail computing
`np.max` of an empty table), it is a fatal error. -/
theorem c3_flip_assert_unreachable (st : FdToPytential.FunctionSpaceAnalog) (b : Bool) :
    (FdToPytential.flipAssertPasses (FdToPytential.effectiveFlipMat st b) = true →
      FdToPytential.reordering_array st b
        ≠ Except.error FdToPytential.flipCheckError) ∧
    (FdToPytential.flipAssertPasses (FdToPytential.effectiveFlipMat st b) = false →
      (b = true → FdToPytential.num_firedrake_nodes st ≠ none) →
      FdToPytential.reordering_array st b
        = Except.error FdToPytential.flipCheckError) := by
  unfold FdToPytential.effectiveFlipMat
  unfold FdToPytential.reordering_array
  cases b
  · simp only [Bool.false_eq_true, if_false, Except.bind]
    constructor
    · intro h hc
      rw [if_neg (by simp [h])] at hc
      cases hnfd : FdToPytential.num_firedrake_nodes st with
      | none =>
        rw [hnfd] at hc
        exact absurd (Except.error.inj hc) (by decide)
      | some nfd =>
        rw [hnfd] at hc
        split at hc
        · exact absurd (Except.error.inj hc) (by decide)
        · split at hc
          · exact Except.noConfusion hc
          · exact Except.noConfusion hc
    · intro h _
      rw [if_pos (by simp [h])]
  · simp only [if_true]
    constructor
    · intro h hc
      cases hnfd : FdToPytential.num_firedrake_nodes st with
      | none =>
        rw [hnfd] at hc
        simp only [Except.bind] at hc
        exact absurd (Except.error.inj hc) (by decide)
      | some nfd =>
        rw [hnfd] at hc
        simp only [Except.bind] at hc
        rw [if_neg (by simp [h])] at hc
        exact Except.noConfusion hc
    · intro h hne
      cases hnfd : FdToPytential.num_firedrake_nodes st with
      | none => exact absurd hnfd (hne (by trivial))
      | some nfd =>
        simp only [Except.bind]
        rw [if_pos (by simp [h])]

/-- C3 witness: at a concrete state with an involutive flip matrix the
assertion error is never produced, and at a state whose flip matrix fails
the check the computation is a fatal configuration error. -/
theorem c3_flip_assert_unreachable_witness :
    FdToPytential.reordering_array FdToPytential.c1WitnessState true
        ≠ Except.error FdToPytential.flipCheckError ∧
      FdToPytential.reordering_array ⟨2, [[0, 1]], [1], [[1, 1], [0, 1]]⟩ false
        = Except.error FdToPytential.flipCheckError :=
  ⟨(c3_flip_assert_unreachable FdToPytential.c1WitnessState true).1 (by decide),
   (c3_flip_assert_unreachable ⟨2, [[0, 1]], [1], [[1, 1], [0, 1]]⟩ false).2 (by decide)
     (fun h => absurd h (by decide))⟩

namespace FdToPytential

/-! ### Claim C2: the duplicate collapse is last-write-wins -/

/-- The flip-adjusted meshmode index array of the mm->fd direction before the
duplicate collapse (function_space.py lines 349-376): the identity enumeration
of the meshmode nodes, reshaped per cell, with the transposed flip matrix
applied to negatively-oriented cells, flattened back.  Slot `p` of the
cell-node table carries the meshmode node index `(mmFlippedFlat st).getD p 0`
(equal to `p` itself on positively-oriented cells). -/
def mmFlippedFlat (st : FunctionSpaceAnalog) : List Int :=
  (flipStep (transposeM st.flipMat) st.orientations
    (chunksOf st.nunit (arangeI (num_meshmode_nodes st)))).flatten

theorem collapseMM_length (nfd : Nat) (cnl : List (List Nat)) (flat : List Int) :
    (collapseMM nfd cnl flat).length = nfd := by
  unfold collapseMM
  rw [foldl_set_length]
  exact List.length_replicate nfd 0

theorem reordering_array_mm2fd_collapse (st : FunctionSpaceAnalog) (nfd : Nat)
    (hfd : num_firedrake_nodes st = some nfd)
    (hassert : flipAssertPasses (transposeM st.flipMat) = true)
    (hne : nfd ≠ num_meshmode_nodes st) :
    reordering_array st false
      = Except.ok (collapseMM nfd st.cellNodeList (mmFlippedFlat st)) := by
  unfold reordering_array mmFlippedFlat
  simp only [Bool.false_eq_true, if_false, Except.bind]
  rw [if_neg (by simp [hassert]), hfd]
  simp only []
  rw [if_pos hne]

end FdToPytential

/-- C2: in the meshmode-to-firedrake direction with duplicate-node collapsing
(`num_firedrake_nodes() != num_meshmode_nodes()`), for every firedrake node
`k`, the reordering array entry at `k` is the flip-adjusted meshmode index
carried by the *last* slot of the cell-node table (in table iteration order)
that maps to `k` — never an average — so `reorder_nodes` reproduces that
slot's value exactly; a node reached by exactly one slot is the singleton
instance of this statement, and the result is a pure function of the state,
hence deterministic across runs. -/
theorem c2_collapse_last_write (st : FdToPytential.FunctionSpaceAnalog)
    (nfd k : Nat) (v : Int)
    (hfd : FdToPytential.num_firedrake_nodes st = some nfd)
    (hne : nfd ≠ FdToPytential.num_meshmode_nodes st)
    (hassert : FdToPytential.flipAssertPasses (FdToPytential.transposeM st.flipMat) = true)
    (hk : k < nfd)
    (hlast : (((st.cellNodeList.flatten.zip (FdToPytential.mmFlippedFlat st)).filter
        (fun p => p.1 = k)).map Prod.snd).getLast? = some v) :
    ∃ arr, FdToPytential.reordering_array st false = Except.ok arr ∧
      arr.getD k 0 = v ∧
      ∀ y z : List Int,
        FdToPytential.reorder_nodes_scalar st y false = Except.ok z →
          z.getD k 0 = y.getD v.toNat 0 := by
  refine ⟨FdToPytential.collapseMM nfd st.cellNodeList (FdToPytential.mmFlippedFlat st),
    FdToPytential.reordering_array_mm2fd_collapse st nfd hfd hassert hne, ?_, ?_⟩
  · unfold FdToPytential.collapseMM
    rw [FdToPytential.foldl_set_getD _ _ _ (by rw [List.length_replicate]; exact hk)]
    rw [List.getLastD_eq_getLast?, hlast]
    rfl
  · intro y z hz
    unfold FdToPytential.reorder_nodes_scalar at hz
    rw [FdToPytential.reordering_array_mm2fd_collapse st nfd hfd hassert hne] at hz
    simp only [Except.map] at hz
    have hzeq : z = (FdToPytential.collapseMM nfd st.cellNodeList
        (FdToPytential.mmFlippedFlat st)).map (fun i => y.getD i.toNat 0) :=
      (Except.ok.inj hz).symm
    have hklen : k < (FdToPytential.collapseMM nfd st.cellNodeList
        (FdToPytential.mmFlippedFlat st)).length := by
      rw [FdToPytential.collapseMM_length]
      exact hk
    have harrk : (FdToPytential.collapseMM nfd st.cellNodeList
        (FdToPytential.mmFlippedFlat st)).getD k 0 = v := by
      unfold FdToPytential.collapseMM
      rw [FdToPytential.foldl_set_getD _ _ _ (by rw [List.length_replicate]; exact hk)]
      rw [List.getLastD_eq_getLast?, hlast]
      rfl
    rw [hzeq, List.getD_eq_getElem _ _ (by simpa using hklen), List.getElem_map]
    rw [← List.getD_eq_getElem _ 0 hklen, harrk]

namespace FdToPytential

/-- A CG-like state for the C2 witness: two cells sharing firedrake node 1
(table `[[0,1],[1,2]]`), 3 firedrake nodes vs 4 meshmode nodes, positive
orientations, identity flip matrix. -/
def c2State : FunctionSpaceAnalog := ⟨2, [[0, 1], [1, 2]], [1, 1], [[1, 0], [0, 1]]⟩

end FdToPytential

/-- C2 witness: at `c2State`, firedrake node 1 is reached by slots 1 and 2 of
the flattened table; the last one carries meshmode index 2, and the collapse
stores exactly that index (last write wins). -/
theorem c2_collapse_last_write_witness :
    ∃ arr, FdToPytential.reordering_array FdToPytential.c2State false = Except.ok arr ∧
      arr.getD 1 0 = 2 ∧
      ∀ y z : List Int,
        FdToPytential.reorder_nodes_scalar FdToPytential.c2State y false = Except.ok z →
          z.getD 1 0 = y.getD (2 : Int).toNat 0 :=
  c2_collapse_last_write FdToPytential.c2State 3 1 2 rfl (by decide) (by decide)
    (by decide) (by decide)

namespace FdToPytential

/-! ### Claim C9: zero cells -/

/-- A zero-cell state: empty cell-node table, no orientations, identity flip
matrix for two local nodes. -/
def c9State : FunctionSpaceAnalog := ⟨2, [], [], [[1, 0], [0, 1]]⟩

end FdToPytential

/-- C9, counterexample: with zero cells the reordering-array computation does
not succeed with an empty permutation in either direction — at `c9State` both
directions fail (the fd->mm direction needs `num_firedrake_nodes`, i.e.
`np.max(cell_node_list) + 1`, and `np.max` of a zero-size array raises
`ValueError`; the mm->fd direction hits the same call at the
duplicate-collapse count comparison). -/
theorem c9_zero_cells_counterexample :
    FdToPytential.reordering_array FdToPytential.c9State true ≠ Except.ok [] ∧
      FdToPytential.reordering_array FdToPytential.c9State false ≠ Except.ok [] := by
  decide

namespace FdToPytential

/-- C9 (amended): for a mesh with zero cells (empty cell-node table), the
reordering-array computation raises in both directions instead of returning
an empty permutation: `num_firedrake_nodes` evaluates `np.max` of a zero-size
array, which raises `ValueError` (and with a flip matrix failing the check
the mm->fd direction raises the assertion error before reaching it). -/
theorem c9_zero_cells_raises (st : FunctionSpaceAnalog)
    (hcnl : st.cellNodeList = []) :
    (∃ e, reordering_array st true = Except.error e) ∧
      (∃ e, reordering_array st false = Except.error e) := by
  have hnfd : num_firedrake_nodes st = none := by
    unfold num_firedrake_nodes
    rw [hcnl]
    rfl
  constructor
  · unfold reordering_array
    simp only [if_true]
    rw [hnfd]
    exact ⟨zeroSizeMaxError, rfl⟩
  · unfold reordering_array
    simp only [Bool.false_eq_true, if_false, Except.bind]
    by_cases hA : ¬ flipAssertPasses (transposeM st.flipMat) = true
    · rw [if_pos hA]
      exact ⟨flipCheckError, rfl⟩
    · rw [if_neg hA, hnfd]
      exact ⟨zeroSizeMaxError, rfl⟩

end FdToPytential

/-- C9 witness: the amended zero-cell theorem applied at the concrete
zero-cell state. -/
theorem c9_zero_cells_raises_witness :
    (∃ e, FdToPytential.reordering_array FdToPytential.c9State true = Except.error e) ∧
      (∃ e, FdToPytential.reordering_array FdToPytential.c9State false = Except.error e) :=
  FdToPytential.c9_zero_cells_raises FdToPytential.c9State rfl

namespace FdToPytential

/-! ### Claim C8: scalar and vector inputs are reordered congruently -/

end FdToPytential

/-- C8: `reorder_nodes` accepts scalar input of shape `(nodes,)` and vector
input of shape `(nodes, dim)` in the firedrake-to-meshmode direction and
produces congruent outputs: the same reordering array permutes the node axis
in both cases, the vector axis rides along, and the vector output is
transposed to the vector-dimension-major layout (`dim` rows), so that row `d`
of the vector output equals the scalar output of component `d`. -/
theorem c8_scalar_vector_congruent (st : FdToPytential.FunctionSpaceAnalog)
    (x : List (List Int)) (dim d : Nat) (arr : List Int)
    (harr : FdToPytential.reordering_array st true = Except.ok arr)
    (hrange : ∀ a ∈ arr, 0 ≤ a ∧ a.toNat < x.length)
    (hrows : ∀ row ∈ x, row.length = dim)
    (hd : d < dim) (hne : arr ≠ []) :
    ∃ v s, FdToPytential.reorder_nodes_vec st x true = Except.ok v ∧
      FdToPytential.reorder_nodes_scalar st (x.map (fun r => r.getD d 0)) true
        = Except.ok s ∧
      v.length = dim ∧ v.getD d [] = s := by
  have hhead : ((arr.map (fun i => x.getD i.toNat [])).headD []).length = dim := by
    cases arr with
    | nil => exact absurd rfl hne
    | cons a rest =>
      simp only [List.map_cons, List.headD_cons]
      have ha := hrange a (List.mem_cons_self a rest)
      rw [List.getD_eq_getElem _ _ ha.2]
      exact hrows _ (List.getElem_mem _)
  refine ⟨FdToPytential.transposeM (arr.map (fun i => x.getD i.toNat [])),
    arr.map (fun i => (x.map (fun r => r.getD d 0)).getD i.toNat 0), ?_, ?_, ?_, ?_⟩
  · unfold FdToPytential.reorder_nodes_vec
    rw [harr]
    rfl
  · unfold FdToPytential.reorder_nodes_scalar
    rw [harr]
    rfl
  · unfold FdToPytential.transposeM
    rw [hhead]
    simp
  · unfold FdToPytential.transposeM
    rw [hhead, FdToPytential.getD_range_map dim d _ [] hd, List.map_map]
    apply List.map_congr_left
    intro a ha
    simp only [Function.comp]
    have h2 := (hrange a ha).2
    rw [List.getD_eq_getElem x [] h2,
      List.getD_eq_getElem (x.map (fun r => r.getD d 0)) 0 (by simpa using h2),
      List.getElem_map]

/-- C8 witness: at the two-cell contiguous state with one flipped cell, the
vector field `[[1,10],[2,20],[3,30],[4,40]]` and its second component
`[10,20,30,40]` are reordered by the same array `[0,1,3,2]`, and row 1 of the
transposed vector output equals the scalar output. -/
theorem c8_scalar_vector_congruent_witness :
    ∃ v s, FdToPytential.reorder_nodes_vec FdToPytential.c1WitnessState
        [[1, 10], [2, 20], [3, 30], [4, 40]] true = Except.ok v ∧
      FdToPytential.reorder_nodes_scalar FdToPytential.c1WitnessState
        ([[1, 10], [2, 20], [3, 30], [4, 40]].map (fun r => r.getD 1 0)) true
        = Except.ok s ∧
      v.length = 2 ∧ v.getD 1 [] = s :=
  c8_scalar_vector_congruent FdToPytential.c1WitnessState
    [[1, 10], [2, 20], [3, 30], [4, 40]] 2 1 [0, 1, 3, 2]
    (by decide) (by decide) (by decide) (by decide) (by decide)

namespace FdToPytential

/-! ### Claim C5: target boundary-id validation in `OpConnection.__init__` -/

/-- The target handling of `OpConnection.__init__` (op.py lines 148-171) when
`targets` is not `None`: warn (non-fatally) when the requested markers are not
all exterior facet markers, raise when none of them is, and otherwise collect
the boundary nodes of every requested marker (`boundary_nodes` is external
firedrake code, passed as a function; the union of sets is modelled as a
deduplicated flattened list).  Returns the warned flag and the target
indices. -/
def opconn_handle_targets (targets markers : List Int)
    (bnodes : Int → List Nat) : Except String (Bool × List Nat) :=
  let warned : Bool := decide (¬ ∀ t ∈ targets, t ∈ markers)
  if ∀ t ∈ targets, t ∉ markers then
    Except.error "No boundary ids are exterior facet ids"
  else
    Except.ok (warned, ((targets.map bnodes).flatten).dedup)

theorem flatten_map_filter (targets : List Int) (p : Int → Bool)
    (bnodes : Int → List Nat) (h : ∀ t, p t = false → bnodes t = []) :
    (targets.map bnodes).flatten = ((targets.filter p).map bnodes).flatten := by
  induction targets with
  | nil => rfl
  | cons t rest ih =>
    by_cases hp : p t = true
    · rw [List.filter_cons_of_pos hp]
      simp only [List.map_cons, List.flatten_cons]
      rw [ih]
    · rw [List.filter_cons_of_neg (by simpa using hp)]
      simp only [List.map_cons, List.flatten_cons]
      rw [h t (by simpa using hp), ih]
      rfl

end FdToPytential

/-- C5: when `OpConnection` is constructed with a non-`None` targets set:
if the requested boundary ids have nonempty intersection with the exterior
facet markers, construction proceeds, and the warned flag is set exactly when
the requested set is not contained in the markers (partial overlap); under
the external fact that `boundary_nodes` of a non-marker is empty, the
collected target indices equal those of the valid subset.  If the requested
ids have empty intersection with the markers, construction raises
"No boundary ids are exterior facet ids". -/
theorem c5_target_bdy_validation (targets markers : List Int)
    (bnodes : Int → List Nat) :
    ((∃ t ∈ targets, t ∈ markers) → (∀ t, t ∉ markers → bnodes t = []) →
      ∃ w idx,
        FdToPytential.opconn_handle_targets targets markers bnodes
          = Except.ok (w, idx) ∧
        (w = true ↔ ¬ ∀ t ∈ targets, t ∈ markers) ∧
        idx = (((targets.filter (fun t => decide (t ∈ markers))).map
          bnodes).flatten).dedup) ∧
    ((∀ t ∈ targets, t ∉ markers) →
      FdToPytential.opconn_handle_targets targets markers bnodes
        = Except.error "No boundary ids are exterior facet ids") := by
  constructor
  · intro hex hbn
    obtain ⟨t0, ht0, hm0⟩ := hex
    unfold FdToPytential.opconn_handle_targets
    rw [if_neg (fun hall => hall t0 ht0 hm0)]
    refine ⟨_, _, rfl, by simp, ?_⟩
    rw [FdToPytential.flatten_map_filter targets (fun t => decide (t ∈ markers)) bnodes]
    intro t hp
    exact hbn t (of_decide_eq_false hp)
  · intro hall
    unfold FdToPytential.opconn_handle_targets
    rw [if_pos hall]

namespace FdToPytential

/-- A concrete external `boundary_nodes` function for the C5 witness:
marker 1 owns nodes 4 and 7, all other markers own nothing. -/
def c5Bnodes : Int → List Nat := fun t => if t = 1 then [4, 7] else []

end FdToPytential

/-- C5 witness: requesting `{1, 5}` against markers `{1, 2, 3}` warns and
proceeds with the nodes of the valid subset `{1}`; requesting `{5}` (the
spec's scenario) raises "No boundary ids are exterior facet ids". -/
theorem c5_target_bdy_validation_witness :
    (∃ w idx,
        FdToPytential.opconn_handle_targets [1, 5] [1, 2, 3] FdToPytential.c5Bnodes
          = Except.ok (w, idx) ∧
        (w = true ↔ ¬ ∀ t ∈ ([1, 5] : List Int), t ∈ ([1, 2, 3] : List Int)) ∧
        idx = (((([1, 5] : List Int).filter
            (fun t => decide (t ∈ ([1, 2, 3] : List Int)))).map
          FdToPytential.c5Bnodes).flatten).dedup) ∧
      FdToPytential.opconn_handle_targets [5] [1, 2, 3] FdToPytential.c5Bnodes
        = Except.error "No boundary ids are exterior facet ids" :=
  ⟨(c5_target_bdy_validation [1, 5] [1, 2, 3] FdToPytential.c5Bnodes).1
      ⟨1, by decide, by decide⟩
      (by
        intro t ht
        unfold FdToPytential.c5Bnodes
        rw [if_neg (fun h1 => ht (by rw [h1]; decide))]),
   (c5_target_bdy_validation [5] [1, 2, 3] FdToPytential.c5Bnodes).2 (by decide)⟩

namespace FdToPytential

/-! ### Claim C6: non-target dofs of the `__call__` output -/

/-- The result handling of `OpConnection.__call__` (op.py lines 238-249):
if no `result_function` is supplied, a fresh zero function is created
(`result_function.dat.data[:] = 0.0`); when target indices exist, the
operator output is scattered into them
(`result_function.dat.data[self.target_indices] = result`, a sequential
element assignment); otherwise the whole data buffer is overwritten with the
mm->fd converted result.  `result` and `converted` stand for the external
operator's output and its mm->fd conversion. -/
def opconn_call_result (target_indices : Option (List Nat))
    (result_function : Option (List Int)) (nOut : Nat)
    (result : List Int) (converted : List Int) : List Int :=
  let base := match result_function with
    | none => List.replicate nOut 0
    | some f => f
  match target_indices with
  | some idxs => (idxs.zip result).foldl (fun acc p => acc.set p.1 p.2) base
  | none => converted

end FdToPytential

/-- C6, counterexample: with a caller-supplied `result_function` whose
non-target entries are nonzero, `__call__` does not zero them: with target
indices `[0]`, supplied buffer `[5, 7]` and operator output `[9]`, the
non-target dof 1 keeps the value 7 (the docstring requires the caller to
supply a buffer "with non-target dofs already set to 0"; the code never
re-zeroes a supplied buffer). -/
theorem c6_nontarget_zero_counterexample :
    (1 : Nat) < 2 ∧ (1 : Nat) ∉ ([0] : List Nat) ∧
      (FdToPytential.opconn_call_result (some [0]) (some [5, 7]) 2 [9] []).getD 1 0
        ≠ 0 := by
  decide

/-- C6 (amended): when `result_function` is not supplied, `__call__` builds a
fresh zero buffer and scatters the converted operator output only into the
target indices, so every dof outside the target indices is zero in the
returned function.  (When the caller supplies a `result_function`, non-target
dofs keep the supplied values — the docstring obliges the caller to pass them
already zeroed.) -/
theorem c6_nontarget_zero_fresh (idxs : List Nat) (result converted : List Int)
    (nOut i : Nat) (hi : i < nOut) (hni : i ∉ idxs) :
    (FdToPytential.opconn_call_result (some idxs) none nOut result converted).getD i 0
      = 0 := by
  unfold FdToPytential.opconn_call_result
  simp only []
  rw [FdToPytential.foldl_set_getD_untouched]
  · rw [List.getD_eq_getElem _ _ (by simpa using hi)]
    exact List.getElem_replicate _ _
  · intro p hp hc
    exact hni (hc ▸ (List.of_mem_zip hp).1)

/-- C6 witness: the amended theorem at target indices `[0, 3]`, output buffer
size 4, operator output `[9, 9]`: the non-target dof 1 is zero. -/
theorem c6_nontarget_zero_fresh_witness :
    (FdToPytential.opconn_call_result (some [0, 3]) none 4 [9, 9] []).getD 1 0 = 0 :=
  c6_nontarget_zero_fresh [0, 3] [9, 9] [] 4 1 (by decide) (by decide)

namespace FdToPytential

/-! ### Claim C7: the boundary-restriction path and element degree -/

/-- The mesh-analog variants dispatched by `isinstance` checks in
`_compute_fd_cell_nodes`: a full-mesh analog, a `MeshAnalogNearBdy`, or a
`MeshAnalogOnBdy`. -/
inductive MeshAnalogKind where
  | full : MeshAnalogKind
  | nearBdy : MeshAnalogKind
  | onBdy : MeshAnalogKind
deriving DecidableEq, Repr

/-- `_compute_fd_cell_nodes` (function_space.py lines 261-295) on the
first-computation path with the cell-node list available:
`num_fdnodes = np.max(cell_node_list) + 1` (raising on a zero-size table),
then for `MeshAnalogNearBdy` the table rows are restricted to the cells near
the boundary (`cell_node_list[cell_id_to_fd_cell_id()]`), and for
`MeshAnalogOnBdy` the path is supported only for degree 1 — any other degree
raises `ValueError("Currently can only do OnBdy for degree 1")` — and the
boundary vertex table replaces the cell-node list.  Returns the resulting
table together with `num_fdnodes`. -/
def compute_fd_cell_nodes (kind : MeshAnalogKind) (degree : Nat)
    (cell_node_list : List (List Nat)) (cellIdToFd : List Nat)
    (vertex_indices : List (List Nat)) :
    Except String (List (List Nat) × Nat) :=
  if cell_node_list.flatten.isEmpty then Except.error zeroSizeMaxError
  else
    let num_fdnodes := cell_node_list.flatten.foldl Nat.max 0 + 1
    match kind with
    | .full => Except.ok (cell_node_list, num_fdnodes)
    | .nearBdy =>
      Except.ok (cellIdToFd.map (fun c => cell_node_list.getD c []), num_fdnodes)
    | .onBdy =>
      if degree ≠ 1 then
        Except.error "Currently can only do OnBdy for degree 1"
      else Except.ok (vertex_indices, num_fdnodes)

end FdToPytential

/-- C7: for a function space restricted to lie on a boundary (the
`MeshAnalogOnBdy` path) whose finat element has degree greater than 1,
computing the firedrake cell-node list raises an error rather than silently
producing output; the path is supported only for degree 1. -/
theorem c7_onbdy_degree_check (degree : Nat)
    (cnl : List (List Nat)) (c2f : List Nat) (vi : List (List Nat))
    (hdeg : 1 < degree) :
    ∃ e, FdToPytential.compute_fd_cell_nodes FdToPytential.MeshAnalogKind.onBdy
        degree cnl c2f vi = Except.error e := by
  unfold FdToPytential.compute_fd_cell_nodes
  by_cases he : cnl.flatten.isEmpty
  · rw [if_pos he]
    exact ⟨_, rfl⟩
  · rw [if_neg he]
    simp only []
    rw [if_pos (by omega : degree ≠ 1)]
    exact ⟨_, rfl⟩

/-- C7 witness: degree 2 on the boundary path raises at a concrete
nonempty table. -/
theorem c7_onbdy_degree_check_witness :
    ∃ e, FdToPytential.compute_fd_cell_nodes FdToPytential.MeshAnalogKind.onBdy
        2 [[0, 1, 2]] [0] [[0, 1]] = Except.error e :=
  c7_onbdy_degree_check 2 [[0, 1, 2]] [0] [[0, 1]] (by decide)
